import Mathlib

/-!
Verification of the boundary tagging, coefficient expressions, variational
forms and the assemble-and-solve pipeline of the lubrication Poisson demo
script (demo_poisson.py).  The script delegates assembly and linear algebra
to an external finite-element library; those library contracts are modelled
from the specification and marked as such, while everything the script itself
computes (geometry predicates, boundary tags, coefficient formulas, the forms
and the boundary-condition objects) is translated directly from the source.
-/

namespace Bubble

/-! ### Mesh edges and the boundary tagging loop (demo_poisson.py, lines 166-172) -/

/-- An edge (facet) of the mesh as the tagging loop observes it: its midpoint
coordinates and the number of incident cells (2-dimensional entities). -/
structure Edge where
  midX : ℚ
  midY : ℚ
  numIncidentCells : ℕ
deriving DecidableEq

/-- Body of the first conditional of the tagging loop:
if pt.x() == 0.0 or pt.x() == 10.0 the tag becomes 1. -/
def tagStep1 (e : Edge) (t : ℕ) : ℕ :=
  if e.midX = 0 ∨ e.midX = 10 then 1 else t

/-- Body of the second conditional of the tagging loop:
if edge.num_entities(2) == 1 and 0 < x < 10 and 0.1 < y < 0.9 the tag becomes 2. -/
def tagStep2 (e : Edge) (t : ℕ) : ℕ :=
  if e.numIncidentCells = 1 ∧ 0 < e.midX ∧ e.midX < 10 ∧ 1/10 < e.midY ∧ e.midY < 9/10
  then 2 else t

/-- One iteration of the tagging loop: the two conditionals run in order on the
current tag value of the edge. -/
def edgeBodyTag (e : Edge) (t : ℕ) : ℕ := tagStep2 e (tagStep1 e t)

/-- Tag an edge starting from the MeshFunction initial value 0. -/
def edgeTag (e : Edge) : ℕ := edgeBodyTag e 0

/-- Condition of the first if statement of the loop. -/
def dirichletCond (e : Edge) : Prop := e.midX = 0 ∨ e.midX = 10

/-- Condition of the second if statement of the loop: boundary edge (exactly
one incident cell) with midpoint strictly inside the x-range and within the
y-band (0.1, 0.9). -/
def fluxCond (e : Edge) : Prop :=
  e.numIncidentCells = 1 ∧ 0 < e.midX ∧ e.midX < 10 ∧ 1/10 < e.midY ∧ e.midY < 9/10

instance (e : Edge) : Decidable (dirichletCond e) := by
  unfold dirichletCond
  infer_instance

instance (e : Edge) : Decidable (fluxCond e) := by
  unfold fluxCond
  infer_instance

/-- C1: an edge is tagged 1 exactly when its midpoint has x-coordinate 0 or 10,
tagged 2 exactly when it has exactly one incident cell and its midpoint
satisfies 0 < x < 10 and 0.1 < y < 0.9, and is left at 0 otherwise; the second
conditional would take precedence were both conditions ever to hold at once. -/
theorem boundaries_tagging (e : Edge) :
    (edgeTag e = 1 ↔ dirichletCond e) ∧
    (edgeTag e = 2 ↔ fluxCond e) ∧
    (¬dirichletCond e ∧ ¬fluxCond e → edgeTag e = 0) ∧
    (dirichletCond e ∧ fluxCond e → edgeTag e = 2) := by
  have hexcl : dirichletCond e → fluxCond e → False := by
    rintro (h0 | h0) ⟨-, hx1, hx2, -⟩ <;> rw [h0] at hx1 hx2 <;> norm_num at hx1 hx2
  unfold edgeTag edgeBodyTag tagStep2 tagStep1
  by_cases h2 : fluxCond e
  · rw [if_pos (by exact h2)]
    exact ⟨⟨fun h => absurd h (by decide), fun h1 => (hexcl h1 h2).elim⟩,
           ⟨fun _ => h2, fun _ => rfl⟩, fun h => absurd h2 h.2, fun _ => rfl⟩
  · rw [if_neg (by exact h2)]
    by_cases h1 : dirichletCond e
    · rw [if_pos (by exact h1)]
      exact ⟨⟨fun _ => h1, fun _ => rfl⟩, ⟨fun h => absurd h (by decide), fun hc => absurd hc h2⟩,
             fun h => absurd h1 h.1, fun h => absurd h.2 h2⟩
    · rw [if_neg (by exact h1)]
      exact ⟨⟨fun h => absurd h (by decide), fun hc => absurd hc h1⟩,
             ⟨fun h => absurd h (by decide), fun hc => absurd hc h2⟩,
             fun _ => rfl, fun h => absurd h.2 h2⟩

/-- Witness for the boundary tagging claim, checking one edge of each kind: a
left-boundary edge gets tag 1, an interior-band boundary edge gets tag 2, and
an edge meeting neither condition stays at tag 0. -/
theorem boundaries_tagging_witness :
    edgeTag ⟨0, 1/2, 2⟩ = 1 ∧ edgeTag ⟨5, 1/2, 1⟩ = 2 ∧ edgeTag ⟨5, 1/2, 2⟩ = 0 :=
  ⟨(boundaries_tagging ⟨0, 1/2, 2⟩).1.mpr (by norm_num [dirichletCond]),
   (boundaries_tagging ⟨5, 1/2, 1⟩).2.1.mpr (by norm_num [fluxCond]),
   (boundaries_tagging ⟨5, 1/2, 2⟩).2.2.1 (by norm_num [dirichletCond, fluxCond])⟩

/-! ### The coefficient k (demo_poisson.py, line 184) -/

/-- Coefficient expression of the pressure problem, translated from
pow(x[1], 2)*(x[1] < 0.5) + pow(1.0-x[1], 2)*(x[1]>=0.5); the Python booleans
act as 0/1 factors. -/
def k_expr (y : ℚ) : ℚ :=
  y ^ 2 * (if y < 1/2 then 1 else 0) + (1 - y) ^ 2 * (if 1/2 ≤ y then 1 else 0)

open Classical in
/-- Real-valued reading of the same coefficient expression, used to state
continuity over the reals. -/
noncomputable def k_exprR (y : ℝ) : ℝ :=
  y ^ 2 * (if y < 1/2 then 1 else 0) + (1 - y) ^ 2 * (if 1/2 ≤ y then 1 else 0)

theorem k_exprR_eq_ite (y : ℝ) : k_exprR y = if 1/2 ≤ y then (1 - y) ^ 2 else y ^ 2 := by
  unfold k_exprR
  by_cases h : (1:ℝ)/2 ≤ y
  · rw [if_neg (not_lt.mpr h), if_pos h, if_pos h]
    ring
  · rw [if_pos (lt_of_not_le h), if_neg h, if_neg h]
    ring

theorem k_exprR_continuous : Continuous k_exprR := by
  have : Continuous fun y : ℝ => if (fun _ : ℝ => (1:ℝ)/2) y ≤ (fun y : ℝ => y) y
      then (1 - y) ^ 2 else y ^ 2 := by
    apply Continuous.if_le
    · exact (continuous_const.sub continuous_id).pow 2
    · exact continuous_id.pow 2
    · exact continuous_const
    · exact continuous_id
    · intro y hy
      rw [← hy]
      norm_num
  have hfun : k_exprR = fun y : ℝ => if (1:ℝ)/2 ≤ y then (1 - y) ^ 2 else y ^ 2 := by
    funext y
    exact k_exprR_eq_ite y
  rw [hfun]
  exact this

theorem k_exprR_agrees (q : ℚ) : k_exprR (q : ℝ) = (k_expr q : ℝ) := by
  unfold k_exprR k_expr
  by_cases h : q < 1/2
  · have h1 : (q : ℝ) < 1/2 := by
      rw [show (1:ℝ)/2 = ((1/2 : ℚ) : ℝ) by norm_num]
      exact_mod_cast h
    rw [if_pos h1, if_neg (not_le.mpr h1), if_pos h, if_neg (not_le.mpr h)]
    push_cast
    ring
  · have h1 : (1:ℝ)/2 ≤ (q : ℝ) := by
      rw [show (1:ℝ)/2 = ((1/2 : ℚ) : ℝ) by norm_num]
      exact_mod_cast not_lt.mp h
    rw [if_neg (not_lt.mpr h1), if_pos h1, if_neg h, if_pos (not_lt.mp h)]
    push_cast
    ring

/-- C10: the piecewise coefficient k is symmetric about y = 1/2, agrees with a
continuous real extension (both branches meet at the value 1/4 at y = 1/2), is
nonnegative, and vanishes exactly at y = 0 and y = 1 — the bottom and the top
of the domain. -/
theorem k_coefficient_properties :
    (∀ y : ℚ, k_expr y = k_expr (1 - y)) ∧
    (∀ q : ℚ, k_exprR (q : ℝ) = (k_expr q : ℝ)) ∧
    Continuous k_exprR ∧
    (k_expr (1/2) = 1/4 ∧ ((1:ℚ)/2) ^ 2 = 1/4 ∧ (1 - (1:ℚ)/2) ^ 2 = 1/4) ∧
    (∀ y : ℚ, 0 ≤ k_expr y) ∧
    (∀ y : ℚ, k_expr y = 0 ↔ y = 0 ∨ y = 1) := by
  refine ⟨?_, k_exprR_agrees, k_exprR_continuous, ?_, ?_, ?_⟩
  · intro y
    unfold k_expr
    split_ifs <;> linarith
  · refine ⟨?_, by norm_num, by norm_num⟩
    unfold k_expr
    norm_num
  · intro y
    unfold k_expr
    split_ifs <;> nlinarith [sq_nonneg y, sq_nonneg (1 - y)]
  · intro y
    unfold k_expr
    rcases lt_or_le y (1/2) with h | h
    · rw [if_pos h, if_neg (not_le.mpr h)]
      constructor
      · intro h0
        left
        have hy : y ^ 2 = 0 := by linarith [sq_nonneg y, sq_nonneg (1 - y)]
        exact sq_eq_zero_iff.mp hy
      · rintro (rfl | rfl)
        · ring
        · exfalso
          linarith
    · rw [if_neg (not_lt.mpr h), if_pos h]
      constructor
      · intro h0
        right
        have hy : (1 - y) ^ 2 = 0 := by linarith [sq_nonneg y, sq_nonneg (1 - y)]
        have h1 := sq_eq_zero_iff.mp hy
        linarith
      · rintro (rfl | rfl)
        · exfalso
          linarith
        · ring

/-! ### Geometry predicates and Dirichlet boundary-condition objects
(demo_poisson.py, lines 113-141) -/

/-- Subdomain predicate boundary0: x[0] == 0.0. -/
def boundary0 (x : ℚ × ℚ) : Bool := x.1 == 0

/-- Subdomain predicate boundary1: x[0] == 10.0. -/
def boundary1 (x : ℚ × ℚ) : Bool := x.1 == 10

/-- Subdomain predicate bound_bubble:
x[0] > 0.0 and x[0] < 10.0 and x[1] > 0.0 and x[1] < 1.0 and on_boundary. -/
def bound_bubble (x : ℚ × ℚ) (on_boundary : Bool) : Bool :=
  decide (0 < x.1) && decide (x.1 < 10) && decide (0 < x.2) && decide (x.2 < 1) && on_boundary

/-- A Dirichlet boundary-condition object: the prescribed value and the
subdomain membership predicate (point, on-boundary flag). -/
structure DirichletBC where
  value : ℚ
  region : (ℚ × ℚ) → Bool → Bool

/-- bc_bubble = DirichletBC(V, p0, bound_bubble) with p0 the expression 0. -/
def bc_bubble : DirichletBC := ⟨0, bound_bubble⟩

/-- bc_left = DirichletBC(V, p1, boundary0) with p1 = Constant(-50);
dolfin also accepts the one-argument predicate form. -/
def bc_left : DirichletBC := ⟨-50, fun x _ => boundary0 x⟩

/-- bc_right = DirichletBC(V, p2, boundary1) with p2 = Constant(50). -/
def bc_right : DirichletBC := ⟨50, fun x _ => boundary1 x⟩

/-! ### Variational forms as expression trees (demo_poisson.py, lines 176-187
and 219-225) -/

/-- Names of the solution fields the script produces. -/
inductive FieldName where
  | pField
  | uField
deriving DecidableEq

/-- Form expressions: the UFL operator tree the script builds. -/
inductive FE where
  | trial : FE
  | test : FE
  | constS : ℚ → FE
  | constVec : List ℚ → FE
  | coeff_k : FE
  | coeff_g : FE
  | facetNormal : FE
  | solvedField : FieldName → FE
  | grad : FE → FE
  | asVec3 : FE → FE → FE → FE
  | add : FE → FE → FE
  | sub : FE → FE → FE
  | mul : FE → FE → FE
  | inner : FE → FE → FE
  | dot : FE → FE → FE
deriving DecidableEq

/-- Integration measures: volume dx, or boundary ds restricted to a tag. -/
inductive MeasureTag where
  | dx
  | ds : ℕ → MeasureTag
deriving DecidableEq

/-- A form is a sum of integrals of expressions against measures. -/
inductive Form where
  | integral : MeasureTag → FE → Form
  | add : Form → Form → Form
deriving DecidableEq

/-- Does an expression reference the given solved field as a coefficient? -/
def FE.usesField : FE → FieldName → Bool
  | .solvedField s, t => s == t
  | .grad e, t => e.usesField t
  | .asVec3 a b c, t => a.usesField t || b.usesField t || c.usesField t
  | .add a b, t => a.usesField t || b.usesField t
  | .sub a b, t => a.usesField t || b.usesField t
  | .mul a b, t => a.usesField t || b.usesField t
  | .inner a b, t => a.usesField t || b.usesField t
  | .dot a b, t => a.usesField t || b.usesField t
  | _, _ => false

/-- Does a form reference the given solved field as a coefficient? -/
def Form.usesField : Form → FieldName → Bool
  | .integral _ e, t => e.usesField t
  | .add f g, t => f.usesField t || g.usesField t

/-- U = Constant((-1.0, 0.0, 0.0)). -/
def U_const : FE := .constVec [-1, 0, 0]

/-- Bilinear form of the pressure solve: a = inner(k*grad(p), grad(q))*dx. -/
def a_pressure : Form :=
  .integral .dx (.inner (.mul .coeff_k (.grad .trial)) (.grad .test))

/-- Linear form of the pressure solve:
L = k*rhog*g*q*ds(1) + dot(U, n)*q*ds(2) with rhog = Constant(10.0). -/
def L_pressure : Form :=
  .add (.integral (.ds 1) (.mul (.mul (.mul .coeff_k (.constS 10)) .coeff_g) .test))
       (.integral (.ds 2) (.mul (.dot U_const .facetNormal) .test))

/-- F = as_vector((rhog, 0.0, 0.0)) appearing in the projection linear form. -/
def F_vec : FE := .asVec3 (.constS 10) (.constS 0) (.constS 0)

/-- Bilinear form of the projection solve: a = inner(u, v)*dx. -/
def a_projection : Form := .integral .dx (.inner .trial .test)

/-- Linear form of the projection solve:
L = inner(k*(grad(p) - as_vector((rhog, 0.0, 0.0))), v)*dx, where p is the
field computed by the first solve. -/
def L_projection : Form :=
  .integral .dx (.inner (.mul .coeff_k (.sub (.grad (.solvedField .pField)) F_vec)) .test)

/-- One invocation of the variational solve pipeline: the two forms, the list
of Dirichlet conditions applied, and the name of the output field. -/
structure SolveCall where
  bilin : Form
  lin : Form
  bcs : List DirichletBC
  outName : FieldName

/-- The first solve of the script: solve(a == L, p, []) at line 202. -/
def firstSolveCall : SolveCall := ⟨a_pressure, L_pressure, [], .pField⟩

/-- The second solve of the script: solve(a == L, u) at line 229; no
boundary-condition argument is passed. -/
def secondSolveCall : SolveCall := ⟨a_projection, L_projection, [], .uField⟩

/-- Modelled from the spec: the mass-matrix bilinear form a(u, v) = ∫ u·v dx
of the projection step (the assembler and solver backing it are not in the
source tree). -/
def massFormSpec : Form := .integral .dx (.inner .trial .test)

/-- Modelled from the spec: the projection linear form
L(v) = ∫ k(∇p − F)·v dx, parameterized by the constant vector F, with p the
already-solved scalar Solution Field. -/
def projFormSpec (F : FE) : Form :=
  .integral .dx (.inner (.mul .coeff_k (.sub (.grad (.solvedField .pField)) F)) .test)

/-- Is an expression a constant vector (a Constant tuple or an as_vector of
scalar constants)? -/
def isConstVector : FE → Bool
  | .constVec _ => true
  | .asVec3 (.constS _) (.constS _) (.constS _) => true
  | _ => false

/-- C5: the second solve of the script is a separate invocation of the same
pipeline whose bilinear form is the mass-matrix form a(u,v) = ∫ u·v dx and
whose linear form is L(v) = ∫ k(∇p − F)·v dx, with F a constant vector and p
the field produced by the first solve, referenced as an input coefficient. -/
theorem projection_is_mass_matrix_pipeline :
    secondSolveCall.bilin = massFormSpec ∧
    secondSolveCall.lin = projFormSpec F_vec ∧
    isConstVector F_vec = true ∧
    Form.usesField secondSolveCall.lin firstSolveCall.outName = true ∧
    Form.usesField secondSolveCall.bilin firstSolveCall.outName = false := by
  refine ⟨rfl, rfl, rfl, rfl, rfl⟩

/-- C3 (code evaluated at the failing input): the script defines the three
Dirichlet boundary-condition objects with values 0 (bubble region), -50
(x = 0) and 50 (x = 10), but the first solve call passes an empty
boundary-condition list, so none of them is applied to the pressure system. -/
theorem first_solve_applies_no_bcs :
    bc_bubble.value = 0 ∧ bc_left.value = -50 ∧ bc_right.value = 50 ∧
    (∀ x b, bc_left.region x b = true ↔ x.1 = 0) ∧
    (∀ x b, bc_right.region x b = true ↔ x.1 = 10) ∧
    (∀ x b, bc_bubble.region x b = true ↔
      (0 < x.1 ∧ x.1 < 10 ∧ 0 < x.2 ∧ x.2 < 1 ∧ b = true)) ∧
    firstSolveCall.bcs = [] ∧
    firstSolveCall.bcs ≠ [bc_bubble, bc_left, bc_right] := by
  refine ⟨rfl, rfl, rfl, ?_, ?_, ?_, rfl, ?_⟩
  · intro x b
    simp [bc_left, boundary0]
  · intro x b
    simp [bc_right, boundary1]
  · intro x b
    simp [bc_bubble, bound_bubble, and_assoc]
  · intro h
    have hlen := congrArg List.length h
    simp [firstSolveCall] at hlen

/-! ### Shape checking of forms against the mesh geometric dimension (C8) -/

/-- Value shape of a form expression: scalar or vector of a given length. -/
inductive Shape where
  | scalar
  | vec : ℕ → Shape
deriving DecidableEq

/-- Shape of a product: one factor must be scalar. -/
def shapeMul : Option Shape → Option Shape → Option Shape
  | some .scalar, some s => some s
  | some s, some .scalar => some s
  | _, _ => none

/-- Shape of a sum or difference: both operands must agree. -/
def shapeSame : Option Shape → Option Shape → Option Shape
  | some a, some b => if a = b then some a else none
  | _, _ => none

/-- Shape of inner(a, b): operands of equal shape, scalar result. -/
def shapeInner : Option Shape → Option Shape → Option Shape
  | some a, some b => if a = b then some Shape.scalar else none
  | _, _ => none

/-- Shape of dot(a, b): two vectors of equal length, scalar result. -/
def shapeDot : Option Shape → Option Shape → Option Shape
  | some (.vec a), some (.vec b) => if a = b then some Shape.scalar else none
  | _, _ => none

/-- Modelled from the spec: shape analysis of a form expression over a mesh of
geometric dimension d with the given trial/test space shape (the consistency
test the external assembler applies; the assembler itself is not in the
source tree). -/
def FE.shape (d : ℕ) (ts : Shape) : FE → Option Shape
  | .trial => some ts
  | .test => some ts
  | .constS _ => some .scalar
  | .constVec cs => some (.vec cs.length)
  | .coeff_k => some .scalar
  | .coeff_g => some .scalar
  | .facetNormal => some (.vec d)
  | .solvedField _ => some .scalar
  | .grad e =>
      match e.shape d ts with
      | some .scalar => some (.vec d)
      | _ => none
  | .asVec3 a b c =>
      match a.shape d ts, b.shape d ts, c.shape d ts with
      | some .scalar, some .scalar, some .scalar => some (.vec 3)
      | _, _, _ => none
  | .add a b => shapeSame (a.shape d ts) (b.shape d ts)
  | .sub a b => shapeSame (a.shape d ts) (b.shape d ts)
  | .mul a b => shapeMul (a.shape d ts) (b.shape d ts)
  | .inner a b => shapeInner (a.shape d ts) (b.shape d ts)
  | .dot a b => shapeDot (a.shape d ts) (b.shape d ts)

/-- A form is consistent when every integrand has scalar shape. -/
def Form.checkShapes (d : ℕ) (ts : Shape) : Form → Bool
  | .integral _ e => FE.shape d ts e == some .scalar
  | .add f g => f.checkShapes d ts && g.checkShapes d ts

/-- Assembly failure. -/
inductive AsmError where
  | assemblyError
deriving DecidableEq

/-- Modelled from the spec: assemble fails with AssemblyError if the form
references a coefficient or space inconsistent with the target mesh
(dimension mismatch); otherwise the validated form is handed on to numeric
assembly. -/
def assembleChecked (d : ℕ) (ts : Shape) (f : Form) : Except AsmError Form :=
  if f.checkShapes d ts then .ok f else .error .assemblyError

/-- C8: the three-component constant vectors U (in the first linear form, via
dot(U, n)) and F (in the projection linear form, via grad(p) - F) make both
forms dimensionally inconsistent with any mesh whose geometric dimension
differs from 3, so assembling either fails with AssemblyError; with gdim = 3
both forms pass the consistency check. -/
theorem dimension_mismatch_raises_assembly_error (d : ℕ) (hd : d ≠ 3) :
    assembleChecked d .scalar L_pressure = .error .assemblyError ∧
    assembleChecked d (.vec d) L_projection = .error .assemblyError ∧
    assembleChecked 3 .scalar L_pressure = .ok L_pressure ∧
    assembleChecked 3 (.vec 3) L_projection = .ok L_projection := by
  have h3 : ¬((3 : ℕ) = d) := fun h => hd h.symm
  refine ⟨?_, ?_, by rfl, by rfl⟩
  · simp only [assembleChecked, Form.checkShapes, L_pressure, U_const, FE.shape,
      shapeMul, shapeDot, List.length_cons, List.length_nil, if_neg h3]
    rfl
  · simp only [assembleChecked, Form.checkShapes, L_projection, F_vec, FE.shape,
      shapeMul, shapeSame, shapeInner]
    rw [if_neg (fun h => hd (Shape.vec.inj h))]
    rfl

/-- Witness for the dimension-mismatch claim at the concrete geometric
dimension 2 (the dimension suggested by the imported 2d mesh file). -/
theorem dimension_mismatch_witness :
    assembleChecked 2 .scalar L_pressure = .error .assemblyError ∧
    assembleChecked 2 (.vec 2) L_projection = .error .assemblyError ∧
    assembleChecked 3 .scalar L_pressure = .ok L_pressure ∧
    assembleChecked 3 (.vec 3) L_projection = .ok L_projection :=
  dimension_mismatch_raises_assembly_error 2 (by decide)

/-! ### The linear solver (spec section 4.6; library code absent from src/) -/

/-- Solver failure: the assembled matrix is singular. -/
inductive SolveError where
  | singularSystemError
deriving DecidableEq

/-- Modelled from the spec: solve(A, b) returns x with A x = b, failing with
SingularSystemError when the matrix is singular; in the regular case the
returned vector is the Cramer solution det(A)⁻¹ · adjugate(A) · b. -/
def solveLinear {n : ℕ} (A : Matrix (Fin n) (Fin n) ℚ) (b : Fin n → ℚ) :
    Except SolveError (Fin n → ℚ) :=
  if A.det = 0 then .error .singularSystemError
  else .ok (A.det⁻¹ • A.adjugate.mulVec b)

theorem solveLinear_ok {n : ℕ} {A : Matrix (Fin n) (Fin n) ℚ} {b y : Fin n → ℚ}
    (hdet : A.det ≠ 0) (hy : A.mulVec y = b) : solveLinear A b = .ok y := by
  unfold solveLinear
  rw [if_neg hdet]
  congr 1
  rw [← hy, Matrix.mulVec_mulVec, Matrix.adjugate_mul, Matrix.smul_mulVec_assoc,
    Matrix.one_mulVec, smul_smul, inv_mul_cancel₀ hdet, one_smul]

theorem solveLinear_solves {n : ℕ} {A : Matrix (Fin n) (Fin n) ℚ} {b x : Fin n → ℚ}
    (hx : solveLinear A b = .ok x) : A.mulVec x = b := by
  unfold solveLinear at hx
  by_cases hdet : A.det = 0
  · rw [if_pos hdet] at hx
    exact absurd hx (by simp)
  · rw [if_neg hdet] at hx
    have hx' : A.det⁻¹ • A.adjugate.mulVec b = x := by
      simpa using hx
    rw [← hx', Matrix.mulVec_smul, Matrix.mulVec_mulVec, Matrix.mul_adjugate,
      Matrix.smul_mulVec_assoc, Matrix.one_mulVec, smul_smul, inv_mul_cancel₀ hdet, one_smul]

/-- C2: a system assembled with no Dirichlet constraints applied (a
pure-Neumann problem, whose matrix annihilates the constant vector, as in the
script's first solve with its empty boundary-condition list) makes the solver
fail with SingularSystemError instead of returning a vector. -/
theorem pure_neumann_solve_is_singular {n : ℕ} (A : Matrix (Fin (n+1)) (Fin (n+1)) ℚ)
    (b : Fin (n+1) → ℚ) (hA : A.mulVec (fun _ => 1) = 0) :
    solveLinear A b = .error .singularSystemError := by
  have hker : ∃ v, v ≠ 0 ∧ A.mulVec v = 0 := by
    refine ⟨fun _ => 1, ?_, hA⟩
    intro hzero
    exact one_ne_zero (congrFun hzero 0)
  have hdet : A.det = 0 := Matrix.exists_mulVec_eq_zero_iff.mp hker
  unfold solveLinear
  rw [if_pos hdet]

/-! ### Tridiagonal matrices: the 1D reduction of the assembled systems -/

/-- Tridiagonal matrix on nodes 0..n: dia on the diagonal, up on the first
superdiagonal and lo on the first subdiagonal, all indexed by the row. -/
def tridiag (n : ℕ) (lo dia up : ℕ → ℚ) : Matrix (Fin (n+1)) (Fin (n+1)) ℚ :=
  fun i j =>
    if i = j then dia i.val
    else if j.val = i.val + 1 then up i.val
    else if i.val = j.val + 1 then lo i.val
    else 0

theorem tridiag_mulVec (n : ℕ) (lo dia up : ℕ → ℚ) (x : Fin (n+1) → ℚ) (i : Fin (n+1)) :
    (tridiag n lo dia up).mulVec x i =
      (if 0 < i.val then lo i.val * x ⟨i.val - 1, lt_of_le_of_lt (Nat.sub_le _ _) i.isLt⟩ else 0)
      + dia i.val * x i
      + (if h : i.val < n then up i.val * x ⟨i.val + 1, Nat.succ_lt_succ h⟩ else 0) := by
  have hsum : (tridiag n lo dia up).mulVec x i =
      ∑ j : Fin (n+1), ((if j = i then dia i.val * x j else 0)
        + ((if j.val = i.val + 1 then up i.val * x j else 0)
        + (if i.val = j.val + 1 then lo i.val * x j else 0))) := by
    rw [Matrix.mulVec, Matrix.dotProduct]
    refine Finset.sum_congr rfl fun j _ => ?_
    unfold tridiag
    by_cases h1 : i = j
    · subst h1
      simp
    · have h1' : ¬(j = i) := fun h => h1 h.symm
      by_cases h2 : j.val = i.val + 1
      · have h3 : ¬(i.val = j.val + 1) := by omega
        rw [if_neg h1, if_pos h2, if_neg h1', if_pos h2, if_neg h3]
        ring
      · by_cases h3 : i.val = j.val + 1
        · rw [if_neg h1, if_neg h2, if_pos h3, if_neg h1', if_neg h2, if_pos h3]
          ring
        · rw [if_neg h1, if_neg h2, if_neg h3, if_neg h1', if_neg h2, if_neg h3]
          ring
  have hS1 : (∑ j : Fin (n+1), if j = i then dia i.val * x j else 0) = dia i.val * x i := by
    rw [Finset.sum_ite_eq' Finset.univ i fun j => dia i.val * x j]
    simp
  have hS2 : (∑ j : Fin (n+1), if j.val = i.val + 1 then up i.val * x j else 0)
      = (if h : i.val < n then up i.val * x ⟨i.val + 1, Nat.succ_lt_succ h⟩ else 0) := by
    by_cases hn : i.val < n
    · rw [dif_pos hn]
      have hcong : ∀ j : Fin (n+1), (if j.val = i.val + 1 then up i.val * x j else 0)
          = (if j = ⟨i.val + 1, Nat.succ_lt_succ hn⟩ then up i.val * x j else 0) := by
        intro j
        refine if_congr ⟨fun h => Fin.ext h, fun h => by rw [h]⟩ rfl rfl
      rw [Finset.sum_congr rfl fun j _ => hcong j,
        Finset.sum_ite_eq' Finset.univ (⟨i.val + 1, Nat.succ_lt_succ hn⟩ : Fin (n+1))
          fun j => up i.val * x j]
      simp
    · rw [dif_neg hn]
      refine Finset.sum_eq_zero fun j _ => ?_
      have hj := j.isLt
      have hi := i.isLt
      exact if_neg (by omega)
  have hS3 : (∑ j : Fin (n+1), if i.val = j.val + 1 then lo i.val * x j else 0)
      = (if 0 < i.val then
          lo i.val * x ⟨i.val - 1, lt_of_le_of_lt (Nat.sub_le _ _) i.isLt⟩ else 0) := by
    by_cases h0 : 0 < i.val
    · rw [if_pos h0]
      have hcong : ∀ j : Fin (n+1), (if i.val = j.val + 1 then lo i.val * x j else 0)
          = (if j = ⟨i.val - 1, lt_of_le_of_lt (Nat.sub_le _ _) i.isLt⟩
             then lo i.val * x j else 0) := by
        intro j
        refine if_congr ⟨fun h => Fin.ext (show j.val = i.val - 1 by omega), fun h => ?_⟩ rfl rfl
        rw [h]
        show i.val = i.val - 1 + 1
        omega
      rw [Finset.sum_congr rfl fun j _ => hcong j,
        Finset.sum_ite_eq' Finset.univ
          (⟨i.val - 1, lt_of_le_of_lt (Nat.sub_le _ _) i.isLt⟩ : Fin (n+1))
          fun j => lo i.val * x j]
      simp
    · rw [if_neg h0]
      refine Finset.sum_eq_zero fun j _ => ?_
      exact if_neg (by omega)
  rw [hsum, Finset.sum_add_distrib, Finset.sum_add_distrib, hS1, hS2, hS3]
  ring

/-! ### The end-to-end scenario (spec section 8; C4) -/

/-- Modelled from the spec: the assembled 1D P1 stiffness matrix with
constant coefficient k = 1 on n uniform intervals of width h — the
y-independent reduction of the rectangular-mesh system that the spec's
end-to-end scenario describes (the assembler itself is external library
code absent from src/). -/
def stiffness1D (n : ℕ) (h : ℚ) : Matrix (Fin (n+1)) (Fin (n+1)) ℚ :=
  tridiag n (fun _ => -(1/h))
    (fun i => if i = 0 ∨ i = n then 1/h else 2/h)
    (fun _ => -(1/h))

/-- Modelled from the spec (section 4.5): Dirichlet enforcement on the matrix
by row replacement — zero row i except a unit diagonal. -/
def constrainRow {N : ℕ} (A : Matrix (Fin N) (Fin N) ℚ) (i : Fin N) :
    Matrix (Fin N) (Fin N) ℚ :=
  fun r c => if r = i then (if c = i then 1 else 0) else A r c

/-- Modelled from the spec (section 4.5): Dirichlet enforcement on the
right-hand side — entry i becomes the prescribed value. -/
def constrainRhs {N : ℕ} (b : Fin N → ℚ) (i : Fin N) (v : ℚ) : Fin N → ℚ :=
  fun r => if r = i then v else b r

/-- Apply one Dirichlet constraint (DOF index, prescribed value) to an
assembled system. -/
def applyDirichlet {N : ℕ} (Ab : Matrix (Fin N) (Fin N) ℚ × (Fin N → ℚ))
    (c : Fin N × ℚ) : Matrix (Fin N) (Fin N) ℚ × (Fin N → ℚ) :=
  (constrainRow Ab.1 c.1, constrainRhs Ab.2 c.1 c.2)

/-- Apply a list of Dirichlet constraints in order. -/
def applyDirichletList {N : ℕ} (Ab : Matrix (Fin N) (Fin N) ℚ × (Fin N → ℚ))
    (cs : List (Fin N × ℚ)) : Matrix (Fin N) (Fin N) ℚ × (Fin N → ℚ) :=
  cs.foldl applyDirichlet Ab

theorem constrainRow_mulVec {N : ℕ} (A : Matrix (Fin N) (Fin N) ℚ) (i : Fin N)
    (x : Fin N → ℚ) (r : Fin N) :
    (constrainRow A i).mulVec x r = if r = i then x i else A.mulVec x r := by
  by_cases hr : r = i
  · rw [if_pos hr, Matrix.mulVec, Matrix.dotProduct]
    have hterm : ∀ c : Fin N, constrainRow A i r c * x c = (if c = i then x c else 0) := by
      intro c
      unfold constrainRow
      rw [if_pos hr]
      by_cases hc : c = i
      · rw [if_pos hc, if_pos hc, one_mul]
      · rw [if_neg hc, if_neg hc, zero_mul]
    rw [Finset.sum_congr rfl fun c _ => hterm c, Finset.sum_ite_eq' Finset.univ i x]
    simp
  · rw [if_neg hr, Matrix.mulVec, Matrix.dotProduct, Matrix.mulVec, Matrix.dotProduct]
    refine Finset.sum_congr rfl fun c _ => ?_
    unfold constrainRow
    rw [if_neg hr]

/-- The last node of the 1D mesh. -/
def lastNode (n : ℕ) : Fin (n+1) := ⟨n, Nat.lt_succ_self n⟩

/-- Modelled from the spec: the constrained linear system of the end-to-end
scenario — n uniform intervals on the x-range [0, 10], coefficient k = 1,
zero load and zero Neumann data, Dirichlet -50 at x = 0 (node 0) and +50 at
x = 10 (node n). -/
def scenarioSystem (n : ℕ) : Matrix (Fin (n+1)) (Fin (n+1)) ℚ × (Fin (n+1) → ℚ) :=
  applyDirichletList (stiffness1D n (10 / n), fun _ => 0)
    [(0, -50), (lastNode n, 50)]

/-- Node x-coordinates of the uniform mesh over [0, 10]. -/
def xcoord (n : ℕ) (i : Fin (n+1)) : ℚ := 10 * i.val / n

/-- The linear interpolant p(x) = -50 + 100·x/10 evaluated at the nodes. -/
def linearInterpolant (n : ℕ) (i : Fin (n+1)) : ℚ := -50 + 100 * xcoord n i / 10

theorem scenario_unfold (n : ℕ) :
    scenarioSystem n =
      (constrainRow (constrainRow (stiffness1D n (10 / n)) 0) (lastNode n),
       constrainRhs (constrainRhs (fun _ => 0) 0 (-50)) (lastNode n) 50) := rfl

theorem scenario_mulVec_rows (n : ℕ) (x : Fin (n+1) → ℚ) (r : Fin (n+1)) :
    (scenarioSystem n).1.mulVec x r =
      if r = lastNode n then x (lastNode n)
      else if r = 0 then x 0
      else (stiffness1D n (10 / n)).mulVec x r := by
  rw [scenario_unfold]
  dsimp only
  rw [constrainRow_mulVec]
  by_cases hlast : r = lastNode n
  · rw [if_pos hlast, if_pos hlast]
  · rw [if_neg hlast, if_neg hlast, constrainRow_mulVec]

theorem scenario_mulVec_interpolant (n : ℕ) (hn : 0 < n) :
    (scenarioSystem n).1.mulVec (linearInterpolant n) = (scenarioSystem n).2 := by
  have hN : ((n : ℚ)) ≠ 0 := Nat.cast_ne_zero.mpr hn.ne'
  funext r
  rw [scenario_mulVec_rows, scenario_unfold]
  dsimp only
  unfold constrainRhs
  by_cases hlast : r = lastNode n
  · rw [if_pos hlast, if_pos hlast]
    unfold linearInterpolant xcoord lastNode
    dsimp only
    field_simp
    ring
  · rw [if_neg hlast, if_neg hlast]
    by_cases h0 : r = 0
    · rw [if_pos h0, if_pos h0]
      unfold linearInterpolant xcoord
      norm_num [Fin.val_zero]
    · rw [if_neg h0, if_neg h0]
      have hr0 : 0 < r.val := Nat.pos_of_ne_zero (fun h => h0 (Fin.ext h))
      have hrn : r.val < n := by
        have hle : r.val ≤ n := Nat.lt_succ_iff.mp r.isLt
        rcases lt_or_eq_of_le hle with h | h
        · exact h
        · exact absurd (Fin.ext (by simpa [lastNode] using h)) hlast
      unfold stiffness1D
      rw [tridiag_mulVec, if_pos hr0, dif_pos hrn,
        if_neg (show ¬(r.val = 0 ∨ r.val = n) by omega)]
      unfold linearInterpolant xcoord
      dsimp only
      have hc1 : ((r.val - 1 : ℕ) : ℚ) = (r.val : ℚ) - 1 := by
        push_cast [Nat.cast_sub (Nat.one_le_iff_ne_zero.mpr hr0.ne')]
        ring
      have hc2 : ((r.val + 1 : ℕ) : ℚ) = (r.val : ℚ) + 1 := by
        push_cast
        ring
      rw [hc1, hc2]
      have h10 : (10 : ℚ) / n ≠ 0 := div_ne_zero (by norm_num) hN
      field_simp
      ring

theorem scenario_det_ne_zero (n : ℕ) (hn : 0 < n) : (scenarioSystem n).1.det ≠ 0 := by
  intro hdet
  obtain ⟨v, hv0, hv⟩ := Matrix.exists_mulVec_eq_zero_iff.mpr hdet
  apply hv0
  have hN : ((n : ℚ)) ≠ 0 := Nat.cast_ne_zero.mpr hn.ne'
  have h10 : (10 : ℚ) / n ≠ 0 := div_ne_zero (by norm_num) hN
  have hrow : ∀ r : Fin (n+1), (scenarioSystem n).1.mulVec v r = 0 := fun r => congrFun hv r
  set X : ℕ → ℚ := fun m => if hm : m < n + 1 then v ⟨m, hm⟩ else 0 with hXdef
  have hXval : ∀ (m : ℕ) (hm : m < n + 1), X m = v ⟨m, hm⟩ := by
    intro m hm
    rw [hXdef]
    exact dif_pos hm
  have hX0 : X 0 = 0 := by
    have h := hrow 0
    rw [scenario_mulVec_rows] at h
    by_cases hz : (0 : Fin (n+1)) = lastNode n
    · rw [if_pos hz] at h
      rw [hXval 0 (Nat.succ_pos n), show (⟨0, Nat.succ_pos n⟩ : Fin (n+1)) = 0 from rfl]
      rw [hz]
      exact h
    · rw [if_neg hz, if_pos rfl] at h
      rw [hXval 0 (Nat.succ_pos n)]
      exact h
  have hXn : X n = 0 := by
    have h := hrow (lastNode n)
    rw [scenario_mulVec_rows, if_pos rfl] at h
    rw [hXval n (Nat.lt_succ_self n)]
    exact h
  have hrec : ∀ m : ℕ, 0 < m → m < n → X (m + 1) + X (m - 1) = 2 * X m := by
    intro m hm0 hmn
    have hmlt : m < n + 1 := by omega
    have h := hrow ⟨m, hmlt⟩
    rw [scenario_mulVec_rows] at h
    have hne1 : (⟨m, hmlt⟩ : Fin (n+1)) ≠ lastNode n := by
      intro hc
      have := congrArg Fin.val hc
      simp [lastNode] at this
      omega
    have hne0 : (⟨m, hmlt⟩ : Fin (n+1)) ≠ 0 := by
      intro hc
      have := congrArg Fin.val hc
      simp at this
      omega
    rw [if_neg hne1, if_neg hne0] at h
    unfold stiffness1D at h
    rw [tridiag_mulVec] at h
    dsimp only at h
    rw [if_pos hm0, dif_pos hmn, if_neg (show ¬(m = 0 ∨ m = n) by omega)] at h
    rw [← hXval (m-1) (by omega), ← hXval m hmlt, ← hXval (m+1) (by omega)] at h
    have h2 : (1 / (10 / (n:ℚ))) * (2 * X m - X (m-1) - X (m+1)) = 0 := by linarith [h]
    rcases mul_eq_zero.mp h2 with hc0 | hkey
    · exact absurd hc0 (one_div_ne_zero h10)
    · linarith [hkey]
  have hlin : ∀ m : ℕ, m ≤ n → X m = m * X 1 := by
    intro m
    induction m using Nat.strong_induction_on with
    | _ m ih =>
      intro hm
      match m with
      | 0 => simpa using hX0
      | 1 => simp
      | (t+2) =>
        have e := hrec (t+1) (Nat.succ_pos t) (by omega)
        have iht := ih t (by omega) (by omega)
        have iht1 := ih (t+1) (by omega) (by omega)
        have ht' : (t + 1 : ℕ) - 1 = t := by omega
        rw [ht'] at e
        have hstep : X (t+2) = 2 * X (t+1) - X t := by linarith
        rw [hstep, iht, iht1]
        push_cast
        ring
  have hX1 : X 1 = 0 := by
    have h := hlin n (le_refl n)
    rw [hXn] at h
    have := h.symm
    rcases mul_eq_zero.mp this with h' | h'
    · exact absurd h' hN
    · exact h'
  funext i
  have hi : i.val ≤ n := Nat.lt_succ_iff.mp i.isLt
  have := hlin i.val hi
  rw [hX1, mul_zero] at this
  rw [hXval i.val i.isLt] at this
  simpa using this

/-- C4: in the end-to-end scenario — uniform mesh over an x-range of length
10, constant coefficient k = 1, Dirichlet values -50 at x = 0 and +50 at
x = 10, zero load and zero Neumann data elsewhere — the solver returns
exactly the linear interpolant p(x) = -50 + 100·x/10 at every degree of
freedom. -/
theorem scenario_solution_is_linear_interpolant (n : ℕ) (hn : 0 < n) :
    solveLinear (scenarioSystem n).1 (scenarioSystem n).2 = .ok (linearInterpolant n) :=
  solveLinear_ok (scenario_det_ne_zero n hn) (scenario_mulVec_interpolant n hn)

/-- Witness for the end-to-end scenario claim on the mesh with two
intervals. -/
theorem scenario_solution_witness :
    solveLinear (scenarioSystem 2).1 (scenarioSystem 2).2 = .ok (linearInterpolant 2) :=
  scenario_solution_is_linear_interpolant 2 (by decide)

/-- The unconstrained stiffness matrix annihilates the constant vector: a
pure-Neumann system has the constants in its null space (spec section 4.6). -/
theorem stiffness1D_mulVec_ones (n : ℕ) (h : ℚ) (hn : 0 < n) :
    (stiffness1D n h).mulVec (fun _ => 1) = 0 := by
  funext i
  unfold stiffness1D
  rw [tridiag_mulVec]
  have hle : i.val ≤ n := Nat.lt_succ_iff.mp i.isLt
  show _ = (0 : ℚ)
  by_cases h0 : 0 < i.val <;> by_cases htop : i.val < n
  · rw [if_pos h0, dif_pos htop, if_neg (by omega)]
    ring
  · rw [if_pos h0, dif_neg htop, if_pos (by omega)]
    ring
  · rw [if_neg h0, dif_pos htop, if_pos (by omega)]
    ring
  · omega

/-- Witness for the pure-Neumann claim: the unconstrained two-node stiffness
system (the 1D reduction of the script's first solve, which applies no
boundary conditions) is rejected as singular. -/
theorem pure_neumann_witness :
    solveLinear (stiffness1D 1 10) (fun _ => 0) = .error .singularSystemError :=
  pure_neumann_solve_is_singular (stiffness1D 1 10) (fun _ => 0)
    (stiffness1D_mulVec_ones 1 10 (by decide))

/-! ### The mass-matrix projection (spec section 4.7; C6) -/

/-- Modelled from the spec: the assembled 1D P1 mass matrix on n uniform
intervals of width h — the Gram matrix of the hat-function basis backing
the projection's mass-matrix solve (the assembler is external library code
absent from src/). -/
def massMatrix1D (n : ℕ) (h : ℚ) : Matrix (Fin (n+1)) (Fin (n+1)) ℚ :=
  tridiag n (fun _ => h/6)
    (fun i => if i = 0 ∨ i = n then h/3 else 2*h/3)
    (fun _ => h/6)

theorem massMatrix1D_mulVec_eq_zero (n : ℕ) (h : ℚ) (hh : 0 < h)
    (x : Fin (n+1) → ℚ) (hx : (massMatrix1D n h).mulVec x = 0) : x = 0 := by
  obtain ⟨i0, -, hmax⟩ :=
    Finset.exists_max_image Finset.univ (fun i => |x i|) ⟨0, Finset.mem_univ 0⟩
  have hmem : ∀ j : Fin (n+1), |x j| ≤ |x i0| := fun j => hmax j (Finset.mem_univ j)
  have hrow := congrFun hx i0
  unfold massMatrix1D at hrow
  rw [tridiag_mulVec] at hrow
  rw [show ((0 : Fin (n+1) → ℚ) i0) = 0 from rfl] at hrow
  have hMnn : 0 ≤ |x i0| := abs_nonneg _
  have hb_lo : |(if 0 < i0.val then
      h/6 * x ⟨i0.val - 1, lt_of_le_of_lt (Nat.sub_le _ _) i0.isLt⟩ else 0)| ≤
      h/6 * |x i0| := by
    split_ifs with hcond
    · rw [abs_mul, abs_of_pos (show (0:ℚ) < h/6 by linarith)]
      exact mul_le_mul_of_nonneg_left (hmem _) (by linarith)
    · rw [abs_zero]
      positivity
  have hb_up : |(if hc : i0.val < n then
      h/6 * x ⟨i0.val + 1, Nat.succ_lt_succ hc⟩ else 0)| ≤ h/6 * |x i0| := by
    split_ifs with hcond
    · rw [abs_mul, abs_of_pos (show (0:ℚ) < h/6 by linarith)]
      exact mul_le_mul_of_nonneg_left (hmem _) (by linarith)
    · rw [abs_zero]
      positivity
  have hMzero : |x i0| = 0 := by
    have hfin : h/6 * |x i0| ≤ 0 := by
      by_cases hends : i0.val = 0 ∨ i0.val = n
      · rw [if_pos hends] at hrow
        rcases eq_or_ne i0.val 0 with hz | hz
        · have hlo0 : (if 0 < i0.val then
              h/6 * x ⟨i0.val - 1, lt_of_le_of_lt (Nat.sub_le _ _) i0.isLt⟩ else 0) = 0 :=
            if_neg (by omega)
          rw [hlo0, zero_add] at hrow
          have heq : h/3 * x i0 = -(if hc : i0.val < n then
              h/6 * x ⟨i0.val + 1, Nat.succ_lt_succ hc⟩ else 0) := by linarith
          have habs : |h/3| * |x i0| ≤ h/6 * |x i0| := by
            rw [← abs_mul, heq, abs_neg]
            exact hb_up
          rw [abs_of_pos (show (0:ℚ) < h/3 by linarith)] at habs
          linarith
        · have hzn : i0.val = n := by tauto
          have hup0 : (if hc : i0.val < n then
              h/6 * x ⟨i0.val + 1, Nat.succ_lt_succ hc⟩ else 0) = 0 :=
            dif_neg (by omega)
          rw [hup0, add_zero] at hrow
          have heq : h/3 * x i0 = -(if 0 < i0.val then
              h/6 * x ⟨i0.val - 1, lt_of_le_of_lt (Nat.sub_le _ _) i0.isLt⟩ else 0) := by
            linarith
          have habs : |h/3| * |x i0| ≤ h/6 * |x i0| := by
            rw [← abs_mul, heq, abs_neg]
            exact hb_lo
          rw [abs_of_pos (show (0:ℚ) < h/3 by linarith)] at habs
          linarith
      · rw [if_neg hends] at hrow
        have heq : 2*h/3 * x i0 =
            -((if 0 < i0.val then
              h/6 * x ⟨i0.val - 1, lt_of_le_of_lt (Nat.sub_le _ _) i0.isLt⟩ else 0)
            + (if hc : i0.val < n then
              h/6 * x ⟨i0.val + 1, Nat.succ_lt_succ hc⟩ else 0)) := by linarith
        have habs : |2*h/3| * |x i0| ≤ h/6 * |x i0| + h/6 * |x i0| := by
          rw [← abs_mul, heq, abs_neg]
          calc |_ + _| ≤ |_| + |_| := abs_add _ _
            _ ≤ h/6 * |x i0| + h/6 * |x i0| := add_le_add hb_lo hb_up
        rw [abs_of_pos (show (0:ℚ) < 2*h/3 by linarith)] at habs
        linarith
    have hz : h/6 * |x i0| = 0 := le_antisymm hfin (by positivity)
    rcases mul_eq_zero.mp hz with hc | hc
    · exact absurd hc (by positivity)
    · exact hc
  funext j
  have hj := hmem j
  rw [hMzero] at hj
  have : |x j| = 0 := le_antisymm hj (abs_nonneg _)
  simpa using abs_eq_zero.mp this

/-- C6: identity recovery of the mass-matrix projection: when the right-hand
side is the mass matrix applied to a coefficient vector w — i.e. the target
field k(∇p − F) already lies in the projection trial space, with nodal
coefficients w — the projection solve returns exactly w. -/
theorem mass_projection_identity (n : ℕ) (h : ℚ) (hh : 0 < h) (w : Fin (n+1) → ℚ) :
    solveLinear (massMatrix1D n h) ((massMatrix1D n h).mulVec w) = .ok w := by
  refine solveLinear_ok ?_ rfl
  intro hdet
  obtain ⟨v, hv0, hv⟩ := Matrix.exists_mulVec_eq_zero_iff.mpr hdet
  exact hv0 (massMatrix1D_mulVec_eq_zero n h hh v hv)

/-- Witness for the projection identity-recovery claim on the two-node mesh
with a nonconstant coefficient vector. -/
theorem mass_projection_identity_witness :
    solveLinear (massMatrix1D 1 1)
      ((massMatrix1D 1 1).mulVec (fun i => if i = 0 then 2 else 5)) =
      .ok (fun i => if i = 0 then 2 else 5) :=
  mass_projection_identity 1 1 (by norm_num) (fun i => if i = 0 then 2 else 5)

/-! ### Additive scatter assembly (spec section 4.4; C7) -/

/-- One local contribution: target row, target column, value. -/
abbrev LocalEntry (N : ℕ) := Fin N × Fin N × ℚ

/-- The local-to-global scattered contributions of one cell. -/
abbrev CellContrib (N : ℕ) := List (LocalEntry N)

/-- Modelled from the spec: scatter one local entry into the global matrix by
accumulation — the entry is added to the current global value, never
overwritten. -/
def scatterEntry {N : ℕ} (A : Matrix (Fin N) (Fin N) ℚ) (t : LocalEntry N) :
    Matrix (Fin N) (Fin N) ℚ :=
  fun r c => if r = t.1 ∧ c = t.2.1 then A r c + t.2.2 else A r c

/-- Scatter all contributions of one cell, in order. -/
def scatterCell {N : ℕ} (A : Matrix (Fin N) (Fin N) ℚ) (cell : CellContrib N) :
    Matrix (Fin N) (Fin N) ℚ :=
  cell.foldl scatterEntry A

/-- Modelled from the spec: assemble a global matrix by visiting the cells in
the given order, starting from the zero matrix. -/
def assembleMatrix {N : ℕ} (cells : List (CellContrib N)) : Matrix (Fin N) (Fin N) ℚ :=
  cells.foldl scatterCell 0

/-- The matrix holding a single local entry. -/
def entryMatrix {N : ℕ} (t : LocalEntry N) : Matrix (Fin N) (Fin N) ℚ :=
  fun r c => if r = t.1 ∧ c = t.2.1 then t.2.2 else 0

/-- The total contribution of one cell as a matrix. -/
def cellMatrix {N : ℕ} (cell : CellContrib N) : Matrix (Fin N) (Fin N) ℚ :=
  (cell.map entryMatrix).sum

theorem scatterEntry_eq_add {N : ℕ} (A : Matrix (Fin N) (Fin N) ℚ) (t : LocalEntry N) :
    scatterEntry A t = A + entryMatrix t := by
  funext r c
  show scatterEntry A t r c = A r c + entryMatrix t r c
  unfold scatterEntry entryMatrix
  split_ifs <;> ring

theorem scatterCell_eq_add {N : ℕ} (A : Matrix (Fin N) (Fin N) ℚ) (cell : CellContrib N) :
    scatterCell A cell = A + cellMatrix cell := by
  induction cell generalizing A with
  | nil => simp [scatterCell, cellMatrix]
  | cons t ts ih =>
    show scatterCell (scatterEntry A t) ts = _
    rw [ih, scatterEntry_eq_add]
    unfold cellMatrix
    rw [List.map_cons, List.sum_cons, add_assoc]

theorem assembleMatrix_eq_sum {N : ℕ} (cells : List (CellContrib N)) :
    assembleMatrix cells = (cells.map cellMatrix).sum := by
  have haux : ∀ (l : List (CellContrib N)) (A : Matrix (Fin N) (Fin N) ℚ),
      l.foldl scatterCell A = A + (l.map cellMatrix).sum := by
    intro l
    induction l with
    | nil => intro A; simp
    | cons c cs ih =>
      intro A
      show cs.foldl scatterCell (scatterCell A c) = _
      rw [ih, scatterCell_eq_add, List.map_cons, List.sum_cons, add_assoc]
  rw [assembleMatrix, haux, zero_add]

/-- C7: assembly is an additive scatter — the assembled matrix is the sum of
the per-cell contribution matrices, entries sharing a DOF being summed and
never overwritten — and visiting the cells in any other order produces the
same global matrix (exactly, in the rational model; summation reordering is
the only float effect the spec accepts). -/
theorem assembly_additive_and_order_independent {N : ℕ}
    (cells1 cells2 : List (CellContrib N)) (hperm : cells1.Perm cells2) :
    assembleMatrix cells1 = (cells1.map cellMatrix).sum ∧
    assembleMatrix cells1 = assembleMatrix cells2 := by
  refine ⟨assembleMatrix_eq_sum cells1, ?_⟩
  rw [assembleMatrix_eq_sum, assembleMatrix_eq_sum]
  exact List.Perm.sum_eq (hperm.map cellMatrix)

/-- Witness for the assembly-order claim: two one-entry cells sharing the DOF
(0, 0), assembled in both orders. -/
theorem assembly_order_witness :
    assembleMatrix ([[((0 : Fin 1), (0 : Fin 1), (2 : ℚ))], [((0 : Fin 1), (0 : Fin 1), (3 : ℚ))]]) =
      ([[((0 : Fin 1), (0 : Fin 1), (2 : ℚ))], [((0 : Fin 1), (0 : Fin 1), (3 : ℚ))]].map
        cellMatrix).sum ∧
    assembleMatrix ([[((0 : Fin 1), (0 : Fin 1), (2 : ℚ))], [((0 : Fin 1), (0 : Fin 1), (3 : ℚ))]]) =
      assembleMatrix ([[((0 : Fin 1), (0 : Fin 1), (3 : ℚ))], [((0 : Fin 1), (0 : Fin 1), (2 : ℚ))]]) :=
  assembly_additive_and_order_independent _ _
    (List.Perm.swap [((0 : Fin 1), (0 : Fin 1), (3 : ℚ))] [((0 : Fin 1), (0 : Fin 1), (2 : ℚ))] [])

/-! ### Lifecycle of the Boundary Tag Map (C9) -/

/-- The mesh as the tagging loop sees it: an indexed family of edges. -/
structure MeshModel where
  edgeOf : ℕ → Edge
  numEdges : ℕ

/-- One iteration of the tagging loop on the MeshFunction, writing the tag of
edge i computed from its current value by the two conditionals. -/
def tagWriteStep (m : MeshModel) (tags : ℕ → ℕ) (i : ℕ) : ℕ → ℕ :=
  fun j => if j = i then edgeBodyTag (m.edgeOf i) (tags i) else tags j

/-- The whole tagging loop: start from the all-zero MeshFunction and visit
every edge once. -/
def buildBoundaries (m : MeshModel) : ℕ → ℕ :=
  (List.range m.numEdges).foldl (tagWriteStep m) (fun _ => 0)

theorem tagWriteStep_foldl (m : MeshModel) :
    ∀ (l : List ℕ) (acc : ℕ → ℕ), l.Nodup →
      ∀ j, (l.foldl (tagWriteStep m) acc) j =
        if j ∈ l then edgeBodyTag (m.edgeOf j) (acc j) else acc j := by
  intro l
  induction l with
  | nil =>
    intro acc _ j
    simp
  | cons i rest ih =>
    intro acc hnd j
    have hndr : rest.Nodup := (List.nodup_cons.mp hnd).2
    have hnotmem : i ∉ rest := (List.nodup_cons.mp hnd).1
    show (rest.foldl (tagWriteStep m) (tagWriteStep m acc i)) j = _
    rw [ih (tagWriteStep m acc i) hndr j]
    by_cases hj : j ∈ rest
    · have hji : j ≠ i := fun h => hnotmem (h ▸ hj)
      rw [if_pos hj, if_pos (List.mem_cons_of_mem i hj)]
      unfold tagWriteStep
      rw [if_neg hji]
    · rw [if_neg hj]
      by_cases hji : j = i
      · subst hji
        rw [if_pos (List.mem_cons_self j rest)]
        unfold tagWriteStep
        rw [if_pos rfl]
      · have : j ∉ i :: rest := by
          intro hc
          rcases List.mem_cons.mp hc with h | h
          · exact hji h
          · exact hj h
        rw [if_neg this]
        unfold tagWriteStep
        rw [if_neg hji]

/-- The measure ds = Measure(ds, subdomain_data=boundaries): it carries a
read-only view of the tag map. -/
structure MeasureDS where
  subdomainData : ℕ → ℕ

/-- The state of the script after the tagging loop: the mesh, the tag map,
and everything later statements create. -/
structure ScriptState where
  mesh : MeshModel
  boundaries : ℕ → ℕ
  dsm : Option MeasureDS
  pField : Option (List ℚ)
  uField : Option (List ℚ)
  outFiles : List FieldName

/-- ds = Measure(ds, subdomain_data=boundaries), line 174. -/
def stepMakeMeasure (s : ScriptState) : ScriptState :=
  ⟨s.mesh, s.boundaries, some ⟨s.boundaries⟩, s.pField, s.uField, s.outFiles⟩

/-- solve(a == L, p, []), line 202: stores the pressure solution. -/
def stepSolvePressure (sol : List ℚ) (s : ScriptState) : ScriptState :=
  ⟨s.mesh, s.boundaries, s.dsm, some sol, s.uField, s.outFiles⟩

/-- file.write(p), line 217. -/
def stepWriteP (s : ScriptState) : ScriptState :=
  ⟨s.mesh, s.boundaries, s.dsm, s.pField, s.uField, s.outFiles ++ [FieldName.pField]⟩

/-- solve(a == L, u), line 229: stores the projection solution. -/
def stepSolveProjection (sol : List ℚ) (s : ScriptState) : ScriptState :=
  ⟨s.mesh, s.boundaries, s.dsm, s.pField, some sol, s.outFiles⟩

/-- u_file.write(u), line 232. -/
def stepWriteU (s : ScriptState) : ScriptState :=
  ⟨s.mesh, s.boundaries, s.dsm, s.pField, s.uField, s.outFiles ++ [FieldName.uField]⟩

/-- Every statement of the script after the tagging loop, in order. -/
def scriptTail (sol1 sol2 : List ℚ) (s : ScriptState) : ScriptState :=
  stepWriteU (stepSolveProjection sol2 (stepWriteP (stepSolvePressure sol1 (stepMakeMeasure s))))

/-- C9: the Boundary Tag Map is computed once, as the pure per-edge function
of midpoint and incident-cell count given by edgeTag, and no later statement
of the script (measure construction, the two solves, the two file writes)
changes any edge's tag. -/
theorem boundary_tags_pure_and_immutable (m : MeshModel) (j : ℕ) (hj : j < m.numEdges) :
    buildBoundaries m j = edgeTag (m.edgeOf j) ∧
    (∀ sol1 sol2 s, (scriptTail sol1 sol2 s).boundaries = s.boundaries) ∧
    (∀ sol1 sol2 s, (scriptTail sol1 sol2 s).dsm = some ⟨s.boundaries⟩) := by
  refine ⟨?_, fun sol1 sol2 s => rfl, fun sol1 sol2 s => rfl⟩
  unfold buildBoundaries
  rw [tagWriteStep_foldl m (List.range m.numEdges) (fun _ => 0) (List.nodup_range _) j,
    if_pos (List.mem_range.mpr hj)]
  rfl

/-- Witness for the tag-map lifecycle claim on a one-edge mesh. -/
theorem boundary_tags_witness :
    buildBoundaries ⟨fun _ => ⟨5, 1/2, 1⟩, 1⟩ 0 = edgeTag ⟨5, 1/2, 1⟩ ∧
    (scriptTail [] [] ⟨⟨fun _ => ⟨5, 1/2, 1⟩, 1⟩, fun _ => 0, none, none, none, []⟩).boundaries =
      (fun _ => (0 : ℕ)) := by
  have h := boundary_tags_pure_and_immutable ⟨fun _ => ⟨5, 1/2, 1⟩, 1⟩ 0 (by decide)
  exact ⟨h.1, h.2.1 [] [] ⟨⟨fun _ => ⟨5, 1/2, 1⟩, 1⟩, fun _ => 0, none, none, none, []⟩⟩

end Bubble
